import Mathlib

/-!
Shallow embedding of the rope-rendering scripts (`rope-blender.py`, `vis.py`).

The embedding follows the Python source.  Machine floats are modelled by `ℚ`
(every quantity the claims touch is produced by ring operations and
comparisons, which ℚ models exactly on the concrete inputs used here);
Python `int` is `ℤ`; Blender's `world_to_camera_view` together with the
object-to-world matrix is an opaque parameter `cam : Vec3 → Vec3` (its output
`(x, y, z)` is the normalized camera-view coordinate with `z` the distance in
front of the camera, increasing away from it).
-/

/-- World/camera coordinates: an `(x, y, z)` triple of rationals. -/
abbrev Vec3 : Type := ℚ × ℚ × ℚ

/-- Python's `round` (banker's rounding, half-to-even), as used at
`p = (round(camera_coord.x * render_size[0]), round(render_size[1] - camera_coord.y * render_size[1]))`. -/
def pythonRound (q : ℚ) : ℤ :=
  if q - ⌊q⌋ < 1/2 then ⌊q⌋
  else if 1/2 < q - ⌊q⌋ then ⌊q⌋ + 1
  else if ⌊q⌋ % 2 = 0 then ⌊q⌋ else ⌊q⌋ + 1

/-- The render size computed in `render_single_scene`:
`resolution_percentage = 100`, `resolution_x = 640`, `resolution_y = 480`,
so `render_size = (int(640 * 1.0), int(480 * 1.0)) = (640, 480)`. -/
def render_size : ℤ × ℤ := (640, 480)

/-- Line 227 of `rope-blender.py`: the pixel coordinate of one camera-view
coordinate, `(round(x * 640), round(480 - y * 480))`. -/
def pixel_from_camera (c : ℚ × ℚ) : ℤ × ℤ :=
  (pythonRound (c.1 * (render_size.1 : ℚ)),
   pythonRound ((render_size.2 : ℚ) - c.2 * (render_size.2 : ℚ)))

/-- One entry of the `pixels` dictionary: `pixels[i] = [p, valid, camera_coord]`.
Only the `z` component of `camera_coord` is read by the pruning loop, so the
entry keeps `pix` (the rounded pixel), the `valid` flag, and the depth `z`. -/
structure PixEntry where
  pix : ℤ × ℤ
  valid : Bool
  z : ℚ
deriving DecidableEq, Repr

/-- The pixel components of a state, in order (`pixels_list = [v[0] for v in pixels.values()]`). -/
def pixList (st : List PixEntry) : List (ℤ × ℤ) := st.map (fun e => e.pix)

/-- The depth components of a state, in order. -/
def zList (st : List PixEntry) : List ℚ := st.map (fun e => e.z)

/-- The validity flag of entry `k`, if `k` is in range. -/
def flagAt (st : List PixEntry) (k : ℕ) : Option Bool := (st.get? k).map (fun e => e.valid)

/-- Generic in-place update of the element at one index of a list
(out-of-range indices leave the list unchanged; the program only ever
updates indices produced by iterating over the same container). -/
def listUpdate {α : Type} : List α → ℕ → (α → α) → List α
  | [], _, _ => []
  | a :: rest, 0, f => f a :: rest
  | a :: rest, k+1, f => a :: listUpdate rest k f

/-- The assignment `pixels[k][1] = False`. -/
def setInvalid (st : List PixEntry) (k : ℕ) : List PixEntry :=
  listUpdate st k (fun e => { e with valid := false })

/-- Squared Euclidean distance between two integer pixels.  sklearn's
`NearestNeighbors` orders candidates by Euclidean distance; ordering by the
squared distance is the same ordering. -/
def dist2 (a b : ℤ × ℤ) : ℤ := (a.1 - b.1)^2 + (a.2 - b.2)^2

/-- Sort key of candidate index `i` for a query pixel `q`: squared distance
first, index as the tie-breaker (a deterministic model of the unspecified
tie order of `NearestNeighbors.kneighbors`). -/
def nnKey (pts : List (ℤ × ℤ)) (q : ℤ × ℤ) (i : ℕ) : ℤ × ℕ :=
  (dist2 (pts.getD i (0, 0)) q, i)

/-- Lexicographic comparison of sort keys. -/
def keyLe (k1 k2 : ℤ × ℕ) : Prop :=
  k1.1 < k2.1 ∨ (k1.1 = k2.1 ∧ k1.2 ≤ k2.2)

instance : DecidableRel keyLe := fun k1 k2 => by
  unfold keyLe; infer_instance

/-- Candidate index `i` precedes candidate `j` for query `q`. -/
def nnLe (pts : List (ℤ × ℤ)) (q : ℤ × ℤ) (i j : ℕ) : Prop :=
  keyLe (nnKey pts q i) (nnKey pts q j)

instance (pts : List (ℤ × ℤ)) (q : ℤ × ℤ) : DecidableRel (nnLe pts q) :=
  fun i j => by unfold nnLe; infer_instance

/-- Model of `neigh.kneighbors([q], k, return_distance=False).squeeze().tolist()`
after `neigh.fit(pts)`: the `k` training indices nearest to `q`, nearest
first.  (sklearn raises when `k` exceeds the number of training points; the
program only queries states with at least `k` points.) -/
def kneighbors (pts : List (ℤ × ℤ)) (q : ℤ × ℤ) (k : ℕ) : List ℕ :=
  (List.insertionSort (nnLe pts q) (List.range pts.length)).take k

/-- Body of the inner loop `for match_idx in match_idxs.squeeze().tolist()[1:]`:
`c1z` is `camera_coord.z` of the outer point `j` (unpacked once, before the
inner loop), `m` is `match_idx`.  The depth test is
`if c1.z - c2.z > M_depth: pixels[match_idx][1] = False
 elif c1.z - c2.z < -M_depth: pixels[j][1] = False`. -/
def neighborCompare (M : ℚ) (j : ℕ) (c1z : ℚ) (st : List PixEntry) (m : ℕ) : List PixEntry :=
  match st.get? m with
  | none => st
  | some em =>
    if em.valid then
      if c1z - em.z > M then setInvalid st m
      else if c1z - em.z < -M then setInvalid st j
      else st
    else st

/-- The inner loop over the (up to 3) returned neighbors other than the first. -/
def pruneInner (M : ℚ) (j : ℕ) (c1z : ℚ) (ms : List ℕ) (st : List PixEntry) :
    List PixEntry :=
  ms.foldl (neighborCompare M j c1z) st

/-- Body of the outer loop `for j in pixels:`: unpack `(p, q), valid,
camera_coord = pixels[j]`; if the flag is still valid, query the 4 nearest
neighbors of `(p, q)`, drop the first returned index, and run the inner loop. -/
def pruneStep (M : ℚ) (pts : List (ℤ × ℤ)) (st : List PixEntry) (j : ℕ) : List PixEntry :=
  match st.get? j with
  | none => st
  | some ej =>
    if ej.valid then
      pruneInner M j ej.z ((kneighbors pts ej.pix 4).drop 1) st
    else st

/-- The whole pruning pass of `render_single_scene` (lines 231-251): fit the
nearest-neighbor structure on the full list of pixel coordinates, then visit
the dictionary keys `0, 1, ..., n-1` in order. -/
def prune_pixels (M : ℚ) (st : List PixEntry) : List PixEntry :=
  (List.range st.length).foldl (pruneStep M (pixList st)) st

/-- Default of the `M_depth` keyword of `render_single_scene`. -/
def Mdepth_default : ℚ := 0.2

/-- The initial `pixels` dictionary built from the camera-view coordinates of
the sampled vertices (lines 217-229): each entry gets its rounded pixel, the
flag `True`, and its camera coordinate. -/
def project_entries (ccs : List Vec3) : List PixEntry :=
  ccs.map (fun c => { pix := pixel_from_camera (c.1, c.2.1), valid := true, z := c.2.2 })

/-- Line 252: `final_pixs = [[v[0], v[1]] for v in pixels.values()]`. -/
def final_pixs (st : List PixEntry) : List ((ℤ × ℤ) × Bool) :=
  st.map (fun e => (e.pix, e.valid))

/-- Python slicing `l[::k]` with stride `k`, via a countdown: an element is
kept when the countdown is 0, and the countdown restarts at `k - 1`. -/
def everyNth {α : Type} (k : ℕ) : List α → ℕ → List α
  | [], _ => []
  | a :: rest, 0 => a :: everyNth k rest (k - 1)
  | _ :: rest, c+1 => everyNth k rest c

/-- Line 205: `list(rope_deformed.data.vertices)[::25]` — every 25th element. -/
def every25 {α : Type} (l : List α) : List α := everyNth 25 l 0

/-- The per-vertex pixel record of one scene: subsample the mesh vertices
(line 205), map them through the camera (`matrix_world` composed with
`world_to_camera_view`, both opaque host-application transforms, bundled in
`cam`), project to pixels, prune, and keep `[pixel, flag]` pairs. -/
def renderPixels (cam : Vec3 → Vec3) (M : ℚ) (verts : List Vec3) : List ((ℤ × ℤ) × Bool) :=
  final_pixs (prune_pixels M (project_entries ((every25 verts).map cam)))

/-!
Bookkeeping of `render_single_scene` / `run` (claim C8): `knots_info` is a
dictionary keyed by `self.i`; each render stores `final_pixs` under the
current key and increments the counter.  The dictionary is modelled as a
partial map `ℕ → Option _`; assignment overwrites the key if present.
-/

/-- The record-keeping state: the `knots_info` dictionary and the counter `self.i`. -/
structure RenderBookkeeping where
  knots : ℕ → Option (List ((ℤ × ℤ) × Bool))
  i : ℕ

/-- Lines 284-285: `self.knots_info[self.i] = final_pixs; self.i += 1`. -/
def recordScene (st : RenderBookkeeping) (fp : List ((ℤ × ℤ) × Bool)) : RenderBookkeeping :=
  { knots := fun k => if k = st.i then some fp else st.knots k, i := st.i + 1 }

/-- The loop of `run(num_images)`, restricted to the record-keeping effects.
`scenes k` is the `final_pixs` list produced by the `k`-th rendered scene
(the scene content itself depends on the host application and its RNG, so it
enters as a parameter).  The renderer starts with `knots_info = {}`, `i = 0`. -/
def runScenes (scenes : ℕ → List ((ℤ × ℤ) × Bool)) (num : ℕ) : RenderBookkeeping :=
  (List.range num).foldl (fun st k => recordScene st (scenes k)) ⟨fun _ => none, 0⟩

/-!
The control-point displacement `randomize_nodes` (claim C9).  The bezier
control points are a list of `Vec3`; `np.random.choice(candidates, k,
replace=False)` is modelled by an arbitrary chosen index list constrained by
the contract of `choice` with `replace=False` (`validChoice`); the realized
random offsets (signs and halving already applied) enter as a parameter.
-/

/-- The candidate pool `set(range(len(self.bezier_points))) ^ offlimit_indices`
(symmetric difference). -/
def nodeCandidates (n : ℕ) (offlimit : Finset ℕ) : Finset ℕ :=
  symmDiff (Finset.range n) offlimit

/-- Contract of `np.random.choice(list(nodeCandidates n offlimit), min(num, n),
replace=False)`: the result is a duplicate-free list of `min num n` elements
of the candidate pool. -/
def validChoice (n : ℕ) (offlimit : Finset ℕ) (num : ℕ) (chosen : List ℕ) : Prop :=
  chosen.Nodup ∧ chosen.length = min num n ∧ ∀ i ∈ chosen, i ∈ nodeCandidates n offlimit

/-- The in-place update of one selected knot: `knot.co.z += offset_z` (only
when `nonplanar`), `knot.co.y += offset_y`, `knot.co.x += offset_x`. -/
def addOffset (nonplanar : Bool) (off : Vec3) (p : Vec3) : Vec3 :=
  (p.1 + off.1, p.2.1 + off.2.1, p.2.2 + if nonplanar then off.2.2 else 0)

/-- The loop of `randomize_nodes`: displace each chosen control point by its
realized offset. -/
def randomize_nodes (nonplanar : Bool) (points : List Vec3) (chosen : List ℕ)
    (offs : ℕ → Vec3) : List Vec3 :=
  chosen.foldl (fun pts idx => listUpdate pts idx (addOffset nonplanar (offs idx))) points

/-!
The drawing loop of `show_knots` in `vis.py` (claim C4).  Each row of the
recorded projection list is the 2-element Python list `[[u, v], flag]`; the
inner statement `for (u, v) in pixels[i]:` iterates over those two elements
and tuple-unpacks each of them, so it unpacks the pixel pair and then the
boolean flag.  The dynamic values met by the unpacking are modelled by
`PyVal`; unpacking a boolean raises `TypeError`.
-/

/-- A Python value encountered by the `for (u, v) in pixels[i]` unpacking. -/
inductive PyVal : Type
  | pair (u v : ℤ)
  | flag (b : Bool)
deriving DecidableEq, Repr

/-- Tuple-unpacking `u, v = w`: succeeds on a pair, raises `TypeError` on a bool. -/
def unpack2 : PyVal → Except String (ℤ × ℤ)
  | .pair u v => .ok (u, v)
  | .flag _ => .error "cannot unpack non-iterable bool object"

/-- The elements of the row `pixels[i] = [[u, v], flag]`, in iteration order. -/
def pyIter (r : (ℤ × ℤ) × Bool) : List PyVal :=
  [PyVal.pair r.1.1 r.1.2, PyVal.flag r.2]

/-- Run the unpack-then-`cv2.circle` body over a stream of values, collecting
the circle centers drawn; the first failed unpacking aborts with the error. -/
def drawLoop : List PyVal → Except String (List (ℤ × ℤ))
  | [] => .ok []
  | v :: rest =>
    match unpack2 v with
    | .error e => .error e
    | .ok c =>
      match drawLoop rest with
      | .error e => .error e
      | .ok cs => .ok (c :: cs)

/-- The nested drawing loops of `show_knots` (lines 13-17 of `vis.py`),
flattened into one pass over all iterated values. -/
def show_knots (rows : List ((ℤ × ℤ) × Bool)) : Except String (List (ℤ × ℤ)) :=
  drawLoop ((rows.map pyIter).flatten)

/-!
Concrete fixtures used to evaluate the embedded code on explicit inputs.
-/

/-- Four projected points: two share the pixel `(0, 0)` with camera depths
`0` (nearer) and `1` (farther); two are far away in pixel space at depth `0`. -/
def exSt4 : List PixEntry :=
  [⟨(0, 0), true, 0⟩, ⟨(0, 0), true, 1⟩, ⟨(100, 100), true, 0⟩, ⟨(200, 200), true, 0⟩]

/-- Four well-separated projected points at equal depth, all flags set. -/
def stOk4 : List PixEntry :=
  [⟨(0, 0), true, 0⟩, ⟨(10, 10), true, 0⟩, ⟨(20, 20), true, 0⟩, ⟨(30, 30), true, 0⟩]

/-- A one-point state whose flag is already `false`. -/
def stF1 : List PixEntry := [⟨(0, 0), false, 0⟩]

/-- A constant camera transform (every vertex maps to the view origin at depth 0). -/
def camC : Vec3 → Vec3 := fun _ => (0, 0, 0)

/-- A 76-vertex mesh (all vertices at the origin); `[::25]` keeps 4 of them. -/
def verts76 : List Vec3 := List.replicate 76 ((0 : ℚ), (0 : ℚ), (0 : ℚ))

/-- Three control points for the `randomize_nodes` fixture. -/
def ptsW : List Vec3 := [(0, 0, 0), (1, 1, 1), (2, 2, 2)]

/-- A constant realized-offset assignment for the `randomize_nodes` fixture. -/
def offsW : ℕ → Vec3 := fun _ => (1, 2, 3)

/-! Helper lemmas about `listUpdate`. -/

theorem listUpdate_get?_ne {α : Type} (l : List α) (k k' : ℕ) (f : α → α) (h : k' ≠ k) :
    (listUpdate l k f).get? k' = l.get? k' := by
  induction l generalizing k k' with
  | nil => rfl
  | cons a rest ih =>
    cases k with
    | zero => cases k' with
      | zero => exact absurd rfl h
      | succ m => rfl
    | succ n => cases k' with
      | zero => rfl
      | succ m => exact ih n m (fun hc => h (by omega))

theorem listUpdate_get?_eq {α : Type} (l : List α) (k : ℕ) (f : α → α) :
    (listUpdate l k f).get? k = (l.get? k).map f := by
  induction l generalizing k with
  | nil => rfl
  | cons a rest ih =>
    cases k with
    | zero => rfl
    | succ n => exact ih n

theorem listUpdate_map {α β : Type} (g : α → β) (l : List α) (k : ℕ) (f : α → α)
    (hgf : ∀ a, g (f a) = g a) : (listUpdate l k f).map g = l.map g := by
  induction l generalizing k with
  | nil => rfl
  | cons a rest ih =>
    cases k with
    | zero => simp [listUpdate, hgf]
    | succ n => simp [listUpdate, ih]

/-! The pruning loop only ever lowers validity flags and touches nothing else.
`PruneRel st st'` records that fact between a state and any later state. -/

/-- Relation between a pruning state and any state reachable from it: pixel
and depth components are untouched and no flag is raised from `false` to `true`. -/
def PruneRel (st st' : List PixEntry) : Prop :=
  pixList st' = pixList st ∧ zList st' = zList st ∧
  ∀ k, flagAt st' k = some true → flagAt st k = some true

theorem pruneRel_refl (st : List PixEntry) : PruneRel st st :=
  ⟨rfl, rfl, fun _ h => h⟩

theorem pruneRel_trans {s1 s2 s3 : List PixEntry} (h12 : PruneRel s1 s2)
    (h23 : PruneRel s2 s3) : PruneRel s1 s3 :=
  ⟨h23.1.trans h12.1, h23.2.1.trans h12.2.1, fun k hk => h12.2.2 k (h23.2.2 k hk)⟩

theorem pruneRel_setInvalid (st : List PixEntry) (k : ℕ) : PruneRel st (setInvalid st k) := by
  refine ⟨listUpdate_map _ _ _ _ (fun a => rfl), listUpdate_map _ _ _ _ (fun a => rfl), ?_⟩
  intro k' hk'
  by_cases hkk : k' = k
  · subst hkk
    unfold flagAt at hk' ⊢
    unfold setInvalid at hk'
    rw [listUpdate_get?_eq] at hk'
    cases hg : st.get? k' with
    | none => rw [hg] at hk'; simp at hk'
    | some e => rw [hg] at hk'; simp at hk'
  · unfold flagAt at hk' ⊢
    unfold setInvalid at hk'
    rwa [listUpdate_get?_ne _ _ _ _ hkk] at hk'

theorem pruneRel_neighborCompare (M : ℚ) (j : ℕ) (c1z : ℚ) (st : List PixEntry) (m : ℕ) :
    PruneRel st (neighborCompare M j c1z st m) := by
  unfold neighborCompare
  split
  · exact pruneRel_refl st
  · split
    · split
      · exact pruneRel_setInvalid st m
      · split
        · exact pruneRel_setInvalid st j
        · exact pruneRel_refl st
    · exact pruneRel_refl st

theorem foldl_pruneRel {β : Type} (f : List PixEntry → β → List PixEntry)
    (hf : ∀ s b, PruneRel s (f s b)) :
    ∀ (l : List β) (s : List PixEntry), PruneRel s (l.foldl f s) := by
  intro l
  induction l with
  | nil => exact fun s => pruneRel_refl s
  | cons b rest ih =>
    intro s
    exact pruneRel_trans (hf s b) (ih (f s b))

theorem pruneRel_pruneInner (M : ℚ) (j : ℕ) (c1z : ℚ) (ms : List ℕ) (st : List PixEntry) :
    PruneRel st (pruneInner M j c1z ms st) :=
  foldl_pruneRel _ (fun s b => pruneRel_neighborCompare M j c1z s b) ms st

theorem pruneRel_pruneStep (M : ℚ) (pts : List (ℤ × ℤ)) (st : List PixEntry) (j : ℕ) :
    PruneRel st (pruneStep M pts st j) := by
  unfold pruneStep
  split
  · exact pruneRel_refl st
  · split
    · exact pruneRel_pruneInner M j _ _ st
    · exact pruneRel_refl st

theorem pruneRel_prune_pixels (M : ℚ) (st : List PixEntry) :
    PruneRel st (prune_pixels M st) :=
  foldl_pruneRel _ (fun s b => pruneRel_pruneStep M (pixList st) s b) (List.range st.length) st

theorem prune_pixels_pixList (M : ℚ) (st : List PixEntry) :
    pixList (prune_pixels M st) = pixList st :=
  (pruneRel_prune_pixels M st).1

theorem prune_pixels_length (M : ℚ) (st : List PixEntry) :
    (prune_pixels M st).length = st.length := by
  have h := congrArg List.length (prune_pixels_pixList M st)
  simpa [pixList] using h

/-! Helper lemmas about the nearest-neighbor model. -/

instance (pts : List (ℤ × ℤ)) (q : ℤ × ℤ) : IsTotal ℕ (nnLe pts q) :=
  ⟨by intro i j; unfold nnLe keyLe nnKey; omega⟩

instance (pts : List (ℤ × ℤ)) (q : ℤ × ℤ) : IsTrans ℕ (nnLe pts q) :=
  ⟨by intro i j k; unfold nnLe keyLe nnKey; omega⟩

theorem dist2_self (a : ℤ × ℤ) : dist2 a a = 0 := by
  simp [dist2]

theorem dist2_nonneg (a b : ℤ × ℤ) : 0 ≤ dist2 a b :=
  add_nonneg (sq_nonneg _) (sq_nonneg _)

theorem dist2_eq_zero_iff (a b : ℤ × ℤ) : dist2 a b = 0 ↔ a = b := by
  constructor
  · intro h
    simp only [dist2] at h
    have h1 : (a.1 - b.1) ^ 2 = 0 := by
      nlinarith [sq_nonneg (a.1 - b.1), sq_nonneg (a.2 - b.2)]
    have h2 : (a.2 - b.2) ^ 2 = 0 := by
      nlinarith [sq_nonneg (a.1 - b.1), sq_nonneg (a.2 - b.2)]
    have e1 : a.1 = b.1 := by nlinarith [sq_nonneg (a.1 - b.1)]
    have e2 : a.2 = b.2 := by nlinarith [sq_nonneg (a.2 - b.2)]
    exact Prod.ext e1 e2
  · intro h
    subst h
    exact dist2_self a

theorem kneighbors_length (pts : List (ℤ × ℤ)) (q : ℤ × ℤ) (k : ℕ) :
    (kneighbors pts q k).length = min k pts.length := by
  unfold kneighbors
  rw [List.length_take, (List.perm_insertionSort _ _).length_eq, List.length_range]

/-- When the pixel coordinates are pairwise distinct, the first index returned
by a nearest-neighbor query at point `j`'s own pixel is `j` itself. -/
theorem kneighbors_head_self (pts : List (ℤ × ℤ)) (hnd : pts.Nodup) (j : ℕ)
    (hj : j < pts.length) (k : ℕ) (hk : 1 ≤ k) :
    (kneighbors pts (pts.getD j (0, 0)) k).head? = some j := by
  unfold kneighbors
  set q := pts.getD j (0, 0) with hq
  set l := List.insertionSort (nnLe pts q) (List.range pts.length) with hl
  have hperm : l.Perm (List.range pts.length) := List.perm_insertionSort _ _
  have hsorted : List.Sorted (nnLe pts q) l := List.sorted_insertionSort _ _
  have hlen : l.length = pts.length := by
    rw [hperm.length_eq, List.length_range]
  cases hcon : l with
  | nil => rw [hcon] at hlen; simp at hlen; omega
  | cons h t =>
    obtain ⟨k', rfl⟩ : ∃ k', k = k' + 1 := ⟨k - 1, by omega⟩
    simp only [List.take_succ_cons, List.head?_cons]
    congr 1
    have hjl : j ∈ l := hperm.mem_iff.mpr (List.mem_range.mpr hj)
    rw [hcon] at hjl hsorted
    rcases List.mem_cons.mp hjl with hjh | hjt
    · exact hjh.symm
    · by_contra hne
      have hhl : h ∈ l := by rw [hcon]; exact List.mem_cons_self h t
      have hhn : h < pts.length := List.mem_range.mp (hperm.mem_iff.mp hhl)
      have hle : nnLe pts q h j := (List.sorted_cons.mp hsorted).1 j hjt
      unfold nnLe keyLe nnKey at hle
      have hdj : dist2 (pts.getD j (0, 0)) q = 0 := by rw [hq]; exact dist2_self _
      have hdh : 0 ≤ dist2 (pts.getD h (0, 0)) q := dist2_nonneg _ _
      have hdh0 : dist2 (pts.getD h (0, 0)) q = 0 := by
        simp only [hdj] at hle
        omega
      have heqd : pts.getD h (0, 0) = pts.getD j (0, 0) := by
        rw [hq] at hdh0
        exact (dist2_eq_zero_iff _ _).mp hdh0
      have hg : pts[h] = pts[j] := by
        have e1 : pts.getD h (0, 0) = pts[h] := List.getD_eq_getElem pts (0, 0) hhn
        have e2 : pts.getD j (0, 0) = pts[j] := List.getD_eq_getElem pts (0, 0) hj
        rw [← e1, ← e2, heqd]
      have : h = j := (List.Nodup.getElem_inj_iff hnd).mp hg
      exact hne (this ▸ rfl)

/-! Helper lemmas about `pythonRound`. -/

theorem pythonRound_ge_floor (q : ℚ) : ⌊q⌋ ≤ pythonRound q := by
  unfold pythonRound
  split_ifs <;> omega

theorem pythonRound_le_floor_add_one (q : ℚ) : pythonRound q ≤ ⌊q⌋ + 1 := by
  unfold pythonRound
  split_ifs <;> omega

theorem pythonRound_abs_sub_le (q : ℚ) : |(pythonRound q : ℚ) - q| ≤ 1 / 2 := by
  have h1 : (⌊q⌋ : ℚ) ≤ q := Int.floor_le q
  have h2 : q < ⌊q⌋ + 1 := Int.lt_floor_add_one q
  unfold pythonRound
  split_ifs with hA hB hC
  all_goals rw [abs_le]; constructor <;> push_cast <;> linarith

theorem pythonRound_mono {q q' : ℚ} (h : q ≤ q') : pythonRound q ≤ pythonRound q' := by
  have hf : ⌊q⌋ ≤ ⌊q'⌋ := Int.floor_mono h
  rcases lt_or_eq_of_le hf with hlt | heq
  · calc pythonRound q ≤ ⌊q⌋ + 1 := pythonRound_le_floor_add_one q
      _ ≤ ⌊q'⌋ := by omega
      _ ≤ pythonRound q' := pythonRound_ge_floor q'
  · have hc : (⌊q⌋ : ℚ) = (⌊q'⌋ : ℚ) := by rw [heq]
    have hd : q - (⌊q⌋ : ℚ) ≤ q' - (⌊q'⌋ : ℚ) := by rw [hc]; linarith
    unfold pythonRound
    rw [← heq]
    rw [← hc] at hd
    split_ifs <;> first | omega | (exfalso; linarith)

/-! Helper lemmas about subsampling, state extensionality and bookkeeping. -/

theorem everyNth25_length {α : Type} :
    ∀ (l : List α) (c : ℕ), c ≤ 24 → (everyNth 25 l c).length = (l.length + (24 - c)) / 25 := by
  intro l
  induction l with
  | nil =>
    intro c hc
    simp only [everyNth, List.length_nil]
    omega
  | cons a rest ih =>
    intro c hc
    cases c with
    | zero =>
      have h24 := ih 24 (by omega)
      simp only [everyNth, List.length_cons, h24]
      omega
    | succ m =>
      have hm := ih m (by omega)
      simp only [everyNth, List.length_cons, hm]
      omega

theorem every25_length {α : Type} (l : List α) :
    (every25 l).length = (l.length + 24) / 25 := by
  have h := everyNth25_length l 0 (by omega)
  simpa [every25] using h

theorem renderPixels_length (cam : Vec3 → Vec3) (M : ℚ) (verts : List Vec3) :
    (renderPixels cam M verts).length = (every25 verts).length := by
  unfold renderPixels final_pixs
  rw [List.length_map, prune_pixels_length]
  unfold project_entries
  rw [List.length_map, List.length_map]

theorem entries_ext :
    ∀ s1 s2 : List PixEntry, pixList s1 = pixList s2 → zList s1 = zList s2 →
      s1.map (fun e => e.valid) = s2.map (fun e => e.valid) → s1 = s2 := by
  intro s1
  induction s1 with
  | nil =>
    intro s2 h1 _ _
    cases s2 with
    | nil => rfl
    | cons e rest => simp [pixList] at h1
  | cons e rest ih =>
    intro s2 h1 h2 h3
    cases s2 with
    | nil => simp [pixList] at h1
    | cons e' rest' =>
      simp only [pixList, zList, List.map_cons, List.cons.injEq] at h1 h2 h3
      have he : e = e' := by
        cases e; cases e'
        simp only [PixEntry.mk.injEq]
        exact ⟨h1.1, h3.1, h2.1⟩
      rw [he, ih rest' h1.2 h2.2 h3.2]

theorem map_valid_replicate (st : List PixEntry) (h : ∀ e ∈ st, e.valid = true) :
    st.map (fun e => e.valid) = List.replicate st.length true := by
  induction st with
  | nil => rfl
  | cons e rest ih =>
    simp only [List.map_cons, List.length_cons, List.replicate_succ]
    rw [h e (List.mem_cons_self e rest), ih (fun x hx => h x (List.mem_cons_of_mem e hx))]

theorem runScenes_succ (scenes : ℕ → List ((ℤ × ℤ) × Bool)) (n : ℕ) :
    runScenes scenes (n + 1) = recordScene (runScenes scenes n) (scenes n) := by
  unfold runScenes
  rw [List.range_succ, List.foldl_append]
  rfl

theorem runScenes_i (scenes : ℕ → List ((ℤ × ℤ) × Bool)) (n : ℕ) :
    (runScenes scenes n).i = n := by
  induction n with
  | zero => rfl
  | succ n ih => rw [runScenes_succ]; simp [recordScene, ih]

theorem runScenes_knots (scenes : ℕ → List ((ℤ × ℤ) × Bool)) (n : ℕ) :
    ∀ k, (runScenes scenes n).knots k = if k < n then some (scenes k) else none := by
  induction n with
  | zero => intro k; simp [runScenes, List.range_zero]
  | succ n ih =>
    intro k
    rw [runScenes_succ]
    simp only [recordScene, runScenes_i]
    by_cases hk : k = n
    · subst hk
      rw [if_pos rfl, if_pos (by omega)]
    · rw [if_neg hk, ih k]
      split_ifs <;> first | rfl | (exfalso; omega)

theorem randomize_nodes_cons (nonplanar : Bool) (points : List Vec3) (c : ℕ) (rest : List ℕ)
    (offs : ℕ → Vec3) :
    randomize_nodes nonplanar points (c :: rest) offs =
      randomize_nodes nonplanar (listUpdate points c (addOffset nonplanar (offs c))) rest offs :=
  rfl

theorem randomize_nodes_not_chosen (nonplanar : Bool) (offs : ℕ → Vec3) (i : ℕ) :
    ∀ (chosen : List ℕ) (points : List Vec3), i ∉ chosen →
      (randomize_nodes nonplanar points chosen offs).get? i = points.get? i := by
  intro chosen
  induction chosen with
  | nil => intro points _; rfl
  | cons c rest ih =>
    intro points hi
    rw [randomize_nodes_cons]
    rw [ih _ (fun hc => hi (List.mem_cons_of_mem _ hc))]
    exact listUpdate_get?_ne _ _ _ _ (fun he => hi (he ▸ List.mem_cons_self _ _))

theorem mem_nodeCandidates (n : ℕ) (offlimit : Finset ℕ) (hsub : offlimit ⊆ Finset.range n)
    (i : ℕ) : i ∈ nodeCandidates n offlimit ↔ i < n ∧ i ∉ offlimit := by
  unfold nodeCandidates
  rw [Finset.mem_symmDiff]
  constructor
  · rintro (⟨h1, h2⟩ | ⟨h1, h2⟩)
    · exact ⟨Finset.mem_range.mp h1, h2⟩
    · exact absurd (hsub h1) h2
  · rintro ⟨h1, h2⟩
    exact Or.inl ⟨Finset.mem_range.mpr h1, h2⟩

/-! Claim theorems. -/

/-- C1: evaluation of the pruning loop at `exSt4` (pixels
`[(0,0), (0,0), (100,100), (200,200)]`, depths `[0, 1, 0, 0]`, `M_depth = 1/5`).
Point 0 is nearer to the camera than its coincident neighbor point 1
(depth 0 versus 1), yet the loop marks point 0 invalid and leaves the farther
point 1 valid (and also invalidates the pixel-distant points 2 and 3): a point
is marked occluded on account of a neighbor farther from the camera, and the
point whose depth exceeds its neighbor's stays valid — the opposite of the
claimed depth test. -/
theorem C1_prune_marks_nearer_point :
    pixList exSt4 = [(0, 0), (0, 0), (100, 100), (200, 200)] ∧
    zList exSt4 = [0, 1, 0, 0] ∧
    (prune_pixels (1/5) exSt4).map (fun e => e.valid) = [false, true, false, false] := by
  refine ⟨rfl, rfl, ?_⟩
  norm_num [prune_pixels, pruneStep, pruneInner, neighborCompare, kneighbors, nnLe, keyLe,
    nnKey, dist2, pixList, setInvalid, listUpdate, exSt4, List.insertionSort, List.orderedInsert,
    List.get?, List.range, List.range.loop, List.foldl]

/-- C2: structure of the pruning pass. The default margin is `0.2 = 1/5`; a
point whose flag is already cleared is skipped by the outer loop; a neighbor
whose flag is already cleared is skipped by the inner comparison; when the
absolute depth difference is at most `M_depth`, the comparison changes
nothing at all (both flags unchanged); a query returns 4 indices of which the
first is dropped, leaving 3; and when the pixel list has no duplicates the
dropped first neighbor is the queried point itself. -/
theorem C2_prune_algorithm_structure :
    Mdepth_default = 1/5 ∧
    (∀ (M : ℚ) (pts : List (ℤ × ℤ)) (st : List PixEntry) (j : ℕ) (ej : PixEntry),
      st.get? j = some ej → ej.valid = false → pruneStep M pts st j = st) ∧
    (∀ (M : ℚ) (j : ℕ) (c1z : ℚ) (st : List PixEntry) (m : ℕ) (em : PixEntry),
      st.get? m = some em → em.valid = false → neighborCompare M j c1z st m = st) ∧
    (∀ (M : ℚ) (j : ℕ) (c1z : ℚ) (st : List PixEntry) (m : ℕ) (em : PixEntry),
      st.get? m = some em → em.valid = true → |c1z - em.z| ≤ M →
      neighborCompare M j c1z st m = st) ∧
    (∀ (pts : List (ℤ × ℤ)) (q : ℤ × ℤ), 4 ≤ pts.length →
      ((kneighbors pts q 4).drop 1).length = 3) ∧
    (∀ (pts : List (ℤ × ℤ)) (j : ℕ), pts.Nodup → j < pts.length →
      (kneighbors pts (pts.getD j (0, 0)) 4).head? = some j) := by
  refine ⟨by norm_num [Mdepth_default], ?_, ?_, ?_, ?_, ?_⟩
  · intro M pts st j ej hg hv
    unfold pruneStep
    rw [hg]
    simp [hv]
  · intro M j c1z st m em hg hv
    unfold neighborCompare
    rw [hg]
    simp [hv]
  · intro M j c1z st m em hg hv hle
    have h3 := abs_le.mp hle
    unfold neighborCompare
    rw [hg]
    simp only [hv, if_true, if_neg (not_lt.mpr h3.2), if_neg (not_lt.mpr h3.1)]
  · intro pts q h4
    rw [List.length_drop, kneighbors_length]
    omega
  · intro pts j hnd hj
    exact kneighbors_head_self pts hnd j hj 4 (by omega)

/-- C2 witness: the structure theorem evaluated at concrete inputs. -/
theorem C2_prune_algorithm_structure_witness :
    pruneStep (1/5) [(0, 0)] stF1 0 = stF1 ∧
    neighborCompare (1/5) 0 0 stOk4 0 = stOk4 ∧
    ((kneighbors (pixList stOk4) (0, 0) 4).drop 1).length = 3 ∧
    (kneighbors (pixList stOk4) ((pixList stOk4).getD 0 (0, 0)) 4).head? = some 0 := by
  refine ⟨?_, ?_, ?_, ?_⟩
  · exact C2_prune_algorithm_structure.2.1 (1/5) [(0, 0)] stF1 0 ⟨(0, 0), false, 0⟩ rfl rfl
  · exact C2_prune_algorithm_structure.2.2.2.1 (1/5) 0 0 stOk4 0 ⟨(0, 0), true, 0⟩ rfl rfl
      (by norm_num)
  · exact C2_prune_algorithm_structure.2.2.2.2.1 (pixList stOk4) (0, 0) (by decide)
  · exact C2_prune_algorithm_structure.2.2.2.2.2 (pixList stOk4) 0 (by decide) (by decide)

/-- C3 counterexample: at the 76-vertex mesh `verts76` (with the constant
camera `camC` and the default margin), `render_single_scene` records only 4
`[pixel, flag]` entries — one per SAMPLED vertex (`[::25]`) — not one per mesh
vertex, so the recorded list does not have one entry per mesh vertex. -/
theorem C3_not_one_entry_per_vertex :
    ¬ ((renderPixels camC (1/5) verts76).length = verts76.length) := by
  rw [renderPixels_length, every25_length]
  simp [verts76]

/-- C3 (amended): the recorded `final_pixs` list has exactly one
`[pixel, flag]` entry per SAMPLED vertex, where the sampled vertices are every
25th mesh vertex (`list(vertices)[::25]`, i.e. `⌈n/25⌉` of `n` vertices); the
hypothesis reflects sklearn's requirement of at least `n_neighbors = 4`
training points. -/
theorem C3_one_entry_per_sampled_vertex :
    ∀ (cam : Vec3 → Vec3) (M : ℚ) (verts : List Vec3),
      4 ≤ (every25 verts).length →
      (renderPixels cam M verts).length = (every25 verts).length ∧
      (every25 verts).length = (verts.length + 24) / 25 := by
  intro cam M verts _
  exact ⟨renderPixels_length cam M verts, every25_length verts⟩

/-- C3 witness: the amended count theorem evaluated at the 76-vertex fixture. -/
theorem C3_one_entry_per_sampled_vertex_witness :
    (renderPixels camC (1/5) verts76).length = (every25 verts76).length ∧
    (every25 verts76).length = (verts76.length + 24) / 25 :=
  C3_one_entry_per_sampled_vertex camC (1/5) verts76 (by decide)

/-- C4: evaluation of the drawing loop of `show_knots` on a recorded list of
two `[pixel, flag]` entries: after drawing the circle for the first entry's
pixel, the statement `for (u, v) in pixels[i]` tries to tuple-unpack the
boolean validity flag and raises `TypeError`; the function neither draws a
circle for every recorded pixel nor returns normally. -/
theorem C4_show_knots_unpacking_raises :
    show_knots [((5, 7), true), ((9, 2), false)] =
      Except.error "cannot unpack non-iterable bool object" := rfl

/-- C5: the pruning pass only clears flags — the `final_pixs` output keeps
exactly one pair per projected point, in the same order, whose pixel
coordinate (and depth record) is identical to the pre-pruning one. -/
theorem C5_prune_preserves_pixels :
    ∀ (M : ℚ) (st : List PixEntry),
      (final_pixs (prune_pixels M st)).map (fun p => p.1) = pixList st ∧
      (final_pixs (prune_pixels M st)).length = st.length ∧
      zList (prune_pixels M st) = zList st := by
  intro M st
  refine ⟨?_, ?_, (pruneRel_prune_pixels M st).2.1⟩
  · unfold final_pixs
    rw [List.map_map]
    exact prune_pixels_pixList M st
  · unfold final_pixs
    rw [List.length_map, prune_pixels_length]

/-- C6: every projected point starts with flag `True`, and during the pruning
loop a flag can only move from `True` to `False`: a point whose flag is
`False` before the loop (or is cleared during it) is never re-marked visible. -/
theorem C6_flags_start_true_and_only_fall :
    (∀ (ccs : List Vec3) (k : ℕ), k < ccs.length →
      flagAt (project_entries ccs) k = some true) ∧
    (∀ (M : ℚ) (st : List PixEntry) (k : ℕ),
      flagAt st k = some false → flagAt (prune_pixels M st) k = some false) := by
  constructor
  · intro ccs k hk
    unfold flagAt project_entries
    rw [List.get?_map]
    cases hg : ccs.get? k with
    | none =>
      rw [List.get?_eq_none] at hg
      omega
    | some c => simp
  · intro M st k h
    cases hgf : (prune_pixels M st).get? k with
    | none =>
      exfalso
      rw [List.get?_eq_none, prune_pixels_length] at hgf
      have hnone : st.get? k = none := List.get?_eq_none.mpr hgf
      unfold flagAt at h
      rw [hnone] at h
      simp at h
    | some ef =>
      unfold flagAt
      rw [hgf]
      cases hv : ef.valid with
      | false => simp [hv]
      | true =>
        exfalso
        have htrue := (pruneRel_prune_pixels M st).2.2 k
          (by unfold flagAt; rw [hgf]; simp [hv])
        unfold flagAt at h htrue
        rw [htrue] at h
        simp at h

/-- C6 witness: a point of a one-vertex scene starts valid, and an
already-cleared flag stays cleared through the pruning pass. -/
theorem C6_flags_start_true_and_only_fall_witness :
    flagAt (project_entries [((0 : ℚ), (0 : ℚ), (0 : ℚ))]) 0 = some true ∧
    flagAt (prune_pixels (1/5) stF1) 0 = some false :=
  ⟨C6_flags_start_true_and_only_fall.1 [((0 : ℚ), (0 : ℚ), (0 : ℚ))] 0 (by decide),
   C6_flags_start_true_and_only_fall.2 (1/5) stF1 0 (by decide)⟩

/-- C7: the pixel of a normalized camera-view coordinate `(x, y)` is
`(round(x * W), round(H - y * H))` with `W = 640`, `H = 480`; the row is
antitone in `y` (the vertical axis is flipped), and each rounded coordinate is
within `1/2` of the unrounded value. -/
theorem C7_pixel_formula :
    (∀ x y : ℚ, pixel_from_camera (x, y) =
      (pythonRound (x * 640), pythonRound (480 - y * 480))) ∧
    render_size = (640, 480) ∧
    (∀ x y y' : ℚ, y ≤ y' →
      (pixel_from_camera (x, y')).2 ≤ (pixel_from_camera (x, y)).2) ∧
    (∀ x y : ℚ, |((pixel_from_camera (x, y)).1 : ℚ) - x * 640| ≤ 1/2 ∧
      |((pixel_from_camera (x, y)).2 : ℚ) - (480 - y * 480)| ≤ 1/2) := by
  refine ⟨?_, rfl, ?_, ?_⟩
  · intro x y
    simp [pixel_from_camera, render_size]
  · intro x y y' hyy
    simp only [pixel_from_camera, render_size]
    apply pythonRound_mono
    have h480 : y * 480 ≤ y' * 480 :=
      mul_le_mul_of_nonneg_right hyy (by norm_num)
    push_cast
    linarith
  · intro x y
    constructor
    · have h := pythonRound_abs_sub_le (x * ((640 : ℤ) : ℚ))
      simp only [pixel_from_camera, render_size] at *
      convert h using 3
    · have h := pythonRound_abs_sub_le ((((480 : ℤ) : ℚ)) - y * ((480 : ℤ) : ℚ))
      simp only [pixel_from_camera, render_size] at *
      convert h using 3

/-- C7 witness: the antitone-row part evaluated at `x = 0`, `y = 0 ≤ y' = 1`,
together with the closed conjuncts. -/
theorem C7_pixel_formula_witness :
    (pixel_from_camera (0, 1)).2 ≤ (pixel_from_camera (0, 0)).2 ∧
    render_size = (640, 480) :=
  ⟨C7_pixel_formula.2.2.1 0 0 1 (by decide), C7_pixel_formula.2.1⟩

/-- C8: after `run(num_images)` the counter equals `num_images` and
`knots_info` holds exactly the keys `0 … num_images - 1`, key `k` mapping to
the `k`-th scene's `final_pixs`; each single render stores one entry under the
current counter value, increments the counter, and leaves every other key
untouched. -/
theorem C8_knots_info_bookkeeping :
    (∀ (scenes : ℕ → List ((ℤ × ℤ) × Bool)) (num : ℕ),
      (runScenes scenes num).i = num ∧
      ∀ k, (runScenes scenes num).knots k =
        if k < num then some (scenes k) else none) ∧
    (∀ (st : RenderBookkeeping) (fp : List ((ℤ × ℤ) × Bool)),
      (recordScene st fp).i = st.i + 1 ∧
      (recordScene st fp).knots st.i = some fp ∧
      ∀ k, k ≠ st.i → (recordScene st fp).knots k = st.knots k) := by
  constructor
  · intro scenes num
    exact ⟨runScenes_i scenes num, runScenes_knots scenes num⟩
  · intro st fp
    refine ⟨rfl, ?_, ?_⟩
    · simp [recordScene]
    · intro k hk
      simp [recordScene, hk]

/-- C8 witness: recording into the fresh state leaves key 1 untouched. -/
theorem C8_knots_info_bookkeeping_witness :
    (recordScene ⟨fun _ => none, 0⟩ []).knots 1 =
      (⟨fun _ => none, 0⟩ : RenderBookkeeping).knots 1 :=
  (C8_knots_info_bookkeeping.2 ⟨fun _ => none, 0⟩ []).2.2 1 (by decide)

/-- C9: when `offlimit_indices` lies inside the valid index range and `num`
does not exceed the number of non-offlimit indices, `randomize_nodes` leaves
every offlimit control point (in particular the loop indices of
`make_simple_loop`) unchanged — indeed every unchosen point — and the chosen,
displaced indices are `num` distinct indices outside `offlimit_indices`. -/
theorem C9_randomize_nodes_frame :
    ∀ (nonplanar : Bool) (num : ℕ) (points : List Vec3) (offlimit : Finset ℕ)
      (chosen : List ℕ) (offs : ℕ → Vec3),
      offlimit ⊆ Finset.range points.length →
      num ≤ (Finset.range points.length \ offlimit).card →
      validChoice points.length offlimit num chosen →
      (∀ i ∈ offlimit,
        (randomize_nodes nonplanar points chosen offs).get? i = points.get? i) ∧
      (∀ i, i ∉ chosen →
        (randomize_nodes nonplanar points chosen offs).get? i = points.get? i) ∧
      chosen.length = num ∧ chosen.Nodup ∧
      (∀ i ∈ chosen, i < points.length ∧ i ∉ offlimit) := by
  intro nonplanar num points offlimit chosen offs hsub hnum hvc
  obtain ⟨hnd, hlen, hmem⟩ := hvc
  have hcand : ∀ i ∈ chosen, i < points.length ∧ i ∉ offlimit := fun i hi =>
    (mem_nodeCandidates points.length offlimit hsub i).mp (hmem i hi)
  have hframe : ∀ i, i ∉ chosen →
      (randomize_nodes nonplanar points chosen offs).get? i = points.get? i := fun i hi =>
    randomize_nodes_not_chosen nonplanar offs i chosen points hi
  refine ⟨?_, hframe, ?_, hnd, hcand⟩
  · intro i hi
    exact hframe i (fun hc => (hcand i hc).2 hi)
  · have hc1 : (Finset.range points.length \ offlimit).card ≤ points.length := by
      calc (Finset.range points.length \ offlimit).card
          ≤ (Finset.range points.length).card := Finset.card_le_card (Finset.sdiff_subset)
        _ = points.length := Finset.card_range _
    rw [hlen]
    omega

/-- C9 witness: the frame theorem at three control points with `offlimit = {0}`
and chosen index list `[1]`. -/
theorem C9_randomize_nodes_frame_witness :
    (∀ i ∈ ({0} : Finset ℕ),
      (randomize_nodes false ptsW [1] offsW).get? i = ptsW.get? i) ∧
    (∀ i, i ∉ ([1] : List ℕ) →
      (randomize_nodes false ptsW [1] offsW).get? i = ptsW.get? i) ∧
    ([1] : List ℕ).length = 1 ∧ ([1] : List ℕ).Nodup ∧
    (∀ i ∈ ([1] : List ℕ), i < ptsW.length ∧ i ∉ ({0} : Finset ℕ)) :=
  C9_randomize_nodes_frame false 1 ptsW {0} [1] offsW (by decide) (by decide)
    ⟨by decide, by decide, by decide⟩

/-- C10: the pruning decision is a pure function of the projected pixels and
camera-space depths — two runs on states with the same pixels, the same
depths, and all flags initially set produce identical validity flags. -/
theorem C10_prune_deterministic :
    ∀ (M : ℚ) (s1 s2 : List PixEntry),
      pixList s1 = pixList s2 → zList s1 = zList s2 →
      (∀ e ∈ s1, e.valid = true) → (∀ e ∈ s2, e.valid = true) →
      (prune_pixels M s1).map (fun e => e.valid) =
        (prune_pixels M s2).map (fun e => e.valid) := by
  intro M s1 s2 hp hz h1 h2
  have hlen : s1.length = s2.length := by
    have h := congrArg List.length hp
    simpa [pixList] using h
  have hv : s1.map (fun e => e.valid) = s2.map (fun e => e.valid) := by
    rw [map_valid_replicate s1 h1, map_valid_replicate s2 h2, hlen]
  rw [entries_ext s1 s2 hp hz hv]

/-- C10 witness: two (syntactically equal) runs on the four-point fixture. -/
theorem C10_prune_deterministic_witness :
    (prune_pixels (1/5) stOk4).map (fun e => e.valid) =
      (prune_pixels (1/5) stOk4).map (fun e => e.valid) :=
  C10_prune_deterministic (1/5) stOk4 stOk4 rfl rfl (by decide) (by decide)
